import Mathlib

/-!
Verification of the repo2ai / repo2md scope and filter resolution engine.

The repository exports a source tree to a structured Markdown document after
deciding, through several combinable filtering mechanisms, which files belong
in the export.  This development gives a shallow embedding of that engine:

* file systems are finite trees (`FSNode`) of named entries, where every file
  carries its raw bytes and a readability flag;
* paths are lists of segments (`List String`); an absolute path is the
  repository root followed by the root-relative segments;
* the pattern matcher, gitignore loader, binary and size classifier, git and
  glob scope resolvers, scope combiner, language classifier and scan
  orchestrator are modelled as executable Lean functions;
* the output layer (`handle_output`) is embedded from `src/repo2md/output.py`
  as a pure function from an environment (clipboard availability, write
  success) to the trace of effects it performs.

The modules `core.py` and `scope.py` of the repository are not part of the
provided sources (only their tests and callers are), so those components are
modelled from the specification; each such definition says so in its
doc comment.  `output.py` is embedded directly from its source.
-/

set_option maxRecDepth 8000

deriving instance DecidableEq for Except

namespace Repo2Md

/-! ## Byte-level string comparison

Paths are compared lexicographically.  Lean core decides `String` order via
`String.ltb`, which does not reduce in the kernel, so we use our own
structurally recursive comparison on the underlying character lists.
-/

/-- Strict lexicographic order on character lists, comparing by code point. -/
def charsLt : List Char → List Char → Bool
  | [], [] => false
  | [], _ :: _ => true
  | _ :: _, [] => false
  | a :: as, b :: bs =>
    if a.toNat < b.toNat then true
    else if b.toNat < a.toNat then false
    else charsLt as bs

/-- Strict lexicographic order on strings (by code points). -/
def strLt (s t : String) : Bool := charsLt s.data t.data

/-- Reflexive lexicographic order on strings. -/
def strLe (s t : String) : Bool := !strLt t s

theorem char_eq_of_toNat_eq {a b : Char} (h : a.toNat = b.toNat) : a = b := by
  unfold Char.toNat at h
  exact Char.eq_of_val_eq (UInt32.toNat.inj h)

theorem charsLt_irrefl (l : List Char) : charsLt l l = false := by
  induction l with
  | nil => rfl
  | cons a as ih => simp [charsLt, ih]

theorem charsLt_asymm : ∀ {a b : List Char}, charsLt a b = true → charsLt b a = false
  | [], [], h => by simp [charsLt] at h
  | [], _ :: _, _ => rfl
  | _ :: _, [], h => by simp [charsLt] at h
  | a :: as, b :: bs, h => by
    simp only [charsLt] at h ⊢
    by_cases hab : a.toNat < b.toNat
    · have : ¬ b.toNat < a.toNat := by omega
      simp [hab, this]
    · by_cases hba : b.toNat < a.toNat
      · simp [hab, hba] at h
      · simp only [hab, hba, if_false] at h ⊢
        exact charsLt_asymm h

theorem charsLt_eq_of_not : ∀ {a b : List Char},
    charsLt a b = false → charsLt b a = false → a = b
  | [], [], _, _ => rfl
  | [], _ :: _, h, _ => by simp [charsLt] at h
  | _ :: _, [], _, h => by simp [charsLt] at h
  | a :: as, b :: bs, h, h' => by
    simp only [charsLt] at h h'
    by_cases hab : a.toNat < b.toNat
    · simp [hab] at h
    · by_cases hba : b.toNat < a.toNat
      · simp [hba, hab] at h'
      · simp only [hab, hba, if_false] at h h'
        have heq : a = b := char_eq_of_toNat_eq (by omega)
        rw [heq, charsLt_eq_of_not h h']

theorem charsLt_trans : ∀ {a b c : List Char},
    charsLt a b = true → charsLt b c = true → charsLt a c = true
  | [], [], _, h, h' => by simp [charsLt] at h
  | [], _ :: _, [], _, h' => by simp [charsLt] at h'
  | [], _ :: _, _ :: _, _, _ => rfl
  | _ :: _, [], _, h, _ => by simp [charsLt] at h
  | _ :: _, _ :: _, [], _, h' => by simp [charsLt] at h'
  | a :: as, b :: bs, c :: cs, h, h' => by
    simp only [charsLt] at h h' ⊢
    by_cases hab : a.toNat < b.toNat <;> by_cases hbc : b.toNat < c.toNat
    · have : a.toNat < c.toNat := by omega
      simp [this]
    · by_cases hcb : c.toNat < b.toNat
      · simp [hab, hbc, hcb] at h'
      · have hb : b.toNat = c.toNat := by omega
        have : a.toNat < c.toNat := by omega
        simp [this]
    · by_cases hba : b.toNat < a.toNat
      · simp [hab, hba] at h
      · have : a.toNat < c.toNat := by omega
        simp [this]
    · by_cases hba : b.toNat < a.toNat
      · simp [hab, hba] at h
      · by_cases hcb : c.toNat < b.toNat
        · simp [hbc, hcb] at h'
        · simp only [hab, hba, if_false] at h
          simp only [hbc, hcb, if_false] at h'
          have hac : ¬ a.toNat < c.toNat := by omega
          have hca : ¬ c.toNat < a.toNat := by omega
          simp only [hac, hca, if_false]
          exact charsLt_trans h h'

theorem strLt_irrefl (s : String) : strLt s s = false := charsLt_irrefl s.data

theorem strLt_of_strLe_of_ne {s t : String} (h : strLe s t = true) (hne : s ≠ t) :
    strLt s t = true := by
  unfold strLe at h
  unfold strLt at *
  rcases hcase : charsLt s.data t.data with _ | _
  · exact absurd (String.ext (charsLt_eq_of_not hcase (by simpa using h))) hne
  · rfl

theorem strLe_trans {s t u : String} (h : strLe s t = true) (h' : strLe t u = true) :
    strLe s u = true := by
  unfold strLe at *
  rcases hus : charsLt u.data s.data with _ | _
  · simp [strLt, hus]
  · exfalso
    unfold strLt at *
    rcases hts : charsLt t.data s.data with _ | _
    · rcases hut : charsLt u.data t.data with _ | _
      · rcases hst : charsLt s.data t.data with _ | _
        · have := charsLt_eq_of_not hst hts
          rw [this] at hus
          rw [hus] at hut
          exact Bool.noConfusion hut
        · have := charsLt_trans hus hst
          rw [this] at hut
          exact Bool.noConfusion hut
      · rw [hut] at h'
        exact Bool.noConfusion h'
    · rw [hts] at h
      exact Bool.noConfusion h

theorem strLe_total (s t : String) : strLe s t = true ∨ strLe t s = true := by
  unfold strLe strLt
  rcases h : charsLt t.data s.data with _ | _
  · left; rfl
  · right
    rw [charsLt_asymm h]
    rfl

/-! ## Lexicographic order on paths

A path is the list of its segments.  The tree walk is required to list files
in deterministic lexicographic order by path, which for segment lists is the
lexicographic extension of the segment order.
-/

/-- Strict lexicographic order on segment paths. -/
def pathLtB : List String → List String → Bool
  | [], [] => false
  | [], _ :: _ => true
  | _ :: _, [] => false
  | p :: ps, q :: qs =>
    if strLt p q then true
    else if strLt q p then false
    else pathLtB ps qs

theorem pathLtB_irrefl (l : List String) : pathLtB l l = false := by
  induction l with
  | nil => rfl
  | cons a as ih => simp [pathLtB, strLt_irrefl, ih]

theorem pathLtB_ne {p q : List String} (h : pathLtB p q = true) : p ≠ q := by
  intro hpq
  rw [hpq, pathLtB_irrefl] at h
  exact Bool.noConfusion h

theorem pathLtB_append_same (a : List String) (x y : List String) :
    pathLtB (a ++ x) (a ++ y) = pathLtB x y := by
  induction a with
  | nil => rfl
  | cons s ss ih => simp [pathLtB, strLt_irrefl, ih]

theorem pathLtB_cons_of_strLt {n n' : String} (h : strLt n n' = true)
    (u v : List String) : pathLtB (n :: u) (n' :: v) = true := by
  simp [pathLtB, h]

/-! ## The file-system model

A file system is a finite tree.  Files carry their raw bytes and a
readability flag (`readable = false` models a file whose open or read fails
with a permission or I/O error).  Directories carry a list of named entries.
Absolute paths are the repository root segments followed by the root-relative
segments.
-/

/-- A node of the scanned file tree. -/
inductive FSNode : Type where
  | file (bytes : List Nat) (readable : Bool) : FSNode
  | dir (entries : List (String × FSNode)) : FSNode

/-- Induction over the file tree: to prove a property of every node it
suffices to prove it for files and for directories assuming it for every
child entry. -/
theorem FSNode.myInduction (P : FSNode → Prop)
    (hfile : ∀ b r, P (.file b r))
    (hdir : ∀ es, (∀ nc ∈ es, P nc.2) → P (.dir es)) : ∀ t, P t := fun t =>
  match t with
  | .file b r => hfile b r
  | .dir es => hdir es (fun nc h => FSNode.myInduction P hfile hdir nc.2)
termination_by t => sizeOf t
decreasing_by
  have := List.sizeOf_lt_of_mem h
  cases nc
  simp at *
  omega

/-- Boolean check that a list of strings has no duplicates. -/
def namesNodup : List String → Bool
  | [] => true
  | n :: ns => !ns.contains n && namesNodup ns

mutual

/-- Well-formedness of a tree: in every directory the entry names are
pairwise distinct (as in a real file system). -/
def wfNode : FSNode → Bool
  | .file _ _ => true
  | .dir es => namesNodup (es.map (·.1)) && wfEntriesList es

def wfEntriesList : List (String × FSNode) → Bool
  | [] => true
  | (_, c) :: rest => wfNode c && wfEntriesList rest

end

mutual

/-- Look a file up by its root-relative segment path; returns its bytes and
readability flag when the path denotes a file in the tree. -/
def findFile : FSNode → List String → Option (List Nat × Bool)
  | .file b r, [] => some (b, r)
  | .file _ _, _ :: _ => none
  | .dir _, [] => none
  | .dir es, n :: rest => findInEntries es n rest

def findInEntries : List (String × FSNode) → String → List String → Option (List Nat × Bool)
  | [], _, _ => none
  | (n, c) :: rest, m, p => if n = m then findFile c p else findInEntries rest m p

end

mutual

/-- All root-relative file paths of a tree, in representation order. -/
def allFilePaths : FSNode → List (List String)
  | .file _ _ => [[]]
  | .dir es => allFilePathsEntries es

def allFilePathsEntries : List (String × FSNode) → List (List String)
  | [] => []
  | (n, c) :: rest => (allFilePaths c).map (n :: ·) ++ allFilePathsEntries rest

end

theorem findInEntries_some {es : List (String × FSNode)} {m : String}
    {p : List String} {v : List Nat × Bool} (h : findInEntries es m p = some v) :
    ∃ c, (m, c) ∈ es ∧ findFile c p = some v := by
  induction es with
  | nil => exact absurd h (by simp [findInEntries])
  | cons nc rest ih =>
    obtain ⟨n, c⟩ := nc
    by_cases hn : n = m
    · subst hn
      rw [findInEntries, if_pos rfl] at h
      exact ⟨c, by simp, h⟩
    · rw [findInEntries, if_neg hn] at h
      obtain ⟨c', hmem, hfind⟩ := ih h
      exact ⟨c', by simp [hmem], hfind⟩

/-! ## Glob matching -/

/-- Glob match of a pattern against one string, character by character:
a star matches any (possibly empty) run of characters, a question mark
matches exactly one character, and every other character matches itself.
Malformed patterns cannot raise; they simply fail to match. -/
def globCharsF : Nat → List Char → List Char → Bool
  | 0, _, _ => false
  | _ + 1, [], [] => true
  | _ + 1, [], _ :: _ => false
  | fuel + 1, p :: ps, [] => p = '*' && globCharsF fuel ps []
  | fuel + 1, p :: ps, c :: cs =>
    if p = '*' then globCharsF fuel ps (c :: cs) || globCharsF fuel (p :: ps) cs
    else if p = '?' then globCharsF fuel ps cs
    else p = c && globCharsF fuel ps cs

/-- Glob match of a pattern against one string; the fuel bounds the joint
length of pattern and string, which strictly decreases at every step. -/
def globChars (p s : List Char) : Bool :=
  globCharsF (p.length + s.length + 1) p s

/-- Glob match of a single-segment pattern against a single path segment. -/
def globMatch1 (pattern segment : String) : Bool :=
  globChars pattern.data segment.data

def matchSegsF : Nat → List String → List String → Bool
  | 0, _, _ => false
  | _ + 1, [], [] => true
  | _ + 1, [], _ :: _ => false
  | fuel + 1, p :: ps, segs =>
    if p = "**" then
      matchSegsF fuel ps segs ||
        (match segs with
          | [] => false
          | _ :: ss => matchSegsF fuel (p :: ps) ss)
    else
      match segs with
      | [] => false
      | s :: ss => globMatch1 p s && matchSegsF fuel ps ss

/-- Match a slash-split pattern against the segments of a relative path.
A literal double-star segment spans any number of path segments (including
none); any other pattern segment glob-matches exactly one path segment.
The fuel bounds the joint length, which strictly decreases at every step. -/
def matchSegs (ps segs : List String) : Bool :=
  matchSegsF (ps.length + segs.length + 1) ps segs

/-! ## Character-list string utilities

These mirror the string operations the Python code performs (`endswith`,
`split`, `strip`, ...), implemented over the character lists so that they
reduce in the kernel.
-/

/-- Split a character list on a separator character. -/
def splitOnChar (sep : Char) : List Char → List (List Char)
  | [] => [[]]
  | a :: as =>
    let r := splitOnChar sep as
    if a = sep then [] :: r
    else
      match r with
      | [] => [[a]]
      | h :: t => (a :: h) :: t

/-- Split a string into its slash-separated segments. -/
def splitSlashes (s : String) : List String :=
  (splitOnChar '/' s.data).map List.asString

/-- Whether the string ends with a slash (a directory-style pattern). -/
def endsWithSlash (s : String) : Bool := s.data.getLastD ' ' = '/'

/-- The string with its final character removed. -/
def dropLastChar (s : String) : String := s.data.dropLast.asString

/-- Whether the string contains a slash (a path-separator). -/
def containsSlash (s : String) : Bool := s.data.contains '/'

/-- Whitespace for the purpose of ignore-file trimming. -/
def isWsChar (c : Char) : Bool := c = ' ' || c = '\t' || c = '\r'

/-- Trim leading and trailing whitespace. -/
def trimChars (cs : List Char) : List Char :=
  ((cs.dropWhile isWsChar).reverse.dropWhile isWsChar).reverse

/-- Decode file bytes as text, one byte per character (adequate for the
ASCII ignore files the loader reads). -/
def bytesToString (bs : List Nat) : String :=
  (bs.map Char.ofNat).asString

/-! ## 4.1 Pattern Matcher

Modelled from the spec: the pattern matcher of `core.py`
(`_should_ignore_file` and its helper) is not among the provided sources.
Contract `matches(path, repo_root, pattern)`: the path is first normalised to
root-relative segments; a pattern ending in a slash matches exactly when some
path segment equals the pattern directory name; a pattern without separators
glob-matches the filename component or equals an intermediate directory name;
a pattern containing separators is glob-matched against the full relative
path with a star confined to one segment and a double star spanning
segments.  Matching is case-sensitive and has no negation syntax.
-/

/-- Modelled from the spec: pattern match against a root-relative path. -/
def matches_pattern (rel : List String) (pattern : String) : Bool :=
  if endsWithSlash pattern then
    rel.contains (dropLastChar pattern)
  else if containsSlash pattern then
    matchSegs (splitSlashes pattern) rel
  else
    globMatch1 pattern (rel.getLastD "") || rel.dropLast.contains pattern

/-- Modelled from the spec: whether any ignore pattern matches the file.
The absolute path is normalised to root-relative segments first. -/
def _should_ignore_file (path root : List String) (ignore_patterns : List String) : Bool :=
  ignore_patterns.any (matches_pattern (path.drop root.length))

/-- Modelled from the spec: whether a directory is matched by a
directory-style ignore pattern, in which case the walk prunes it. -/
def _dir_pruned (path root : List String) (ignore_patterns : List String) : Bool :=
  ignore_patterns.any fun p =>
    endsWithSlash p && matches_pattern (path.drop root.length) p

/-! ## 4.2 Gitignore Loader

Modelled from the spec: `_parse_gitignore` of `core.py` is not among the
provided sources.  It reads the conventional ignore file at the repository
root when present and readable, strips blank lines and comment lines
(after trimming whitespace), and keeps the remaining lines verbatim in file
order; an absent or unreadable file yields the empty list.
-/

/-- One line survives parsing when, after trimming, it is neither blank nor
a comment. -/
def gitignoreLines (content : List Char) : List String :=
  ((splitOnChar '\n' content).map trimChars
    |>.filter (fun l => !l.isEmpty && !(l.headD ' ' = '#'))).map List.asString

/-- Modelled from the spec: parse the ignore file at the root of the tree. -/
def _parse_gitignore (t : FSNode) : List String :=
  match findFile t [".gitignore"] with
  | some (bytes, true) => gitignoreLines (bytes.map Char.ofNat)
  | _ => []

/-! ## 4.3 Binary / Size Classifier

Modelled from the spec: `_is_binary_file` of `core.py` is not among the
provided sources.  A file is classified binary when its leading byte window
contains a NUL byte or fails to decode as UTF-8; a file is eligible when it
does not exceed the size ceiling and is not binary.
-/

/-- Size of the leading byte window sniffed for binary content. -/
def binary_window : Nat := 1024

/-- Whether a byte is a UTF-8 continuation byte. -/
def isCont (b : Nat) : Bool := 0x80 ≤ b && b < 0xC0

/-- UTF-8 validity of a byte sequence (rejecting overlong encodings,
surrogates and out-of-range code points). -/
def validUtf8 : List Nat → Bool
  | [] => true
  | b :: r =>
    if b < 0x80 then validUtf8 r
    else if b < 0xC2 then false
    else if b < 0xE0 then
      match r with
      | c1 :: r2 => isCont c1 && validUtf8 r2
      | [] => false
    else if b < 0xF0 then
      match r with
      | c1 :: c2 :: r3 =>
        isCont c1 && isCont c2 &&
          !(b = 0xE0 && c1 < 0xA0) && !(b = 0xED && 0xA0 ≤ c1) && validUtf8 r3
      | _ => false
    else if b < 0xF5 then
      match r with
      | c1 :: c2 :: c3 :: r4 =>
        isCont c1 && isCont c2 && isCont c3 &&
          !(b = 0xF0 && c1 < 0x90) && !(b = 0xF4 && 0x90 ≤ c1) && validUtf8 r4
      | _ => false
    else false

/-- Modelled from the spec: binary sniffing over the leading byte window. -/
def _is_binary_file (bytes : List Nat) : Bool :=
  let window := bytes.take binary_window
  window.contains 0 || !validUtf8 window

/-- Modelled from the spec: per-file eligibility, `eligible(path, max_bytes)`;
a file exceeding the ceiling is ineligible regardless of content, and a
binary file is ineligible regardless of size. -/
def eligible (bytes : List Nat) (max_bytes : Nat) : Bool :=
  decide (bytes.length ≤ max_bytes) && !_is_binary_file bytes

/-! ## 4.7 Language Classifier

Modelled from the spec: `_get_language_from_extension` of `core.py` is not
among the provided sources.  A pure function over the filename: a closed
extension table plus a small set of extension-less conventional filenames;
absent when no rule applies.  The table entries are fixed by `test_core.py`.
-/

/-- The extension of a filename: the part after the last dot. -/
def fileExt (name : String) : Option String :=
  match splitOnChar '.' name.data with
  | [] => none
  | [_] => none
  | parts => some (parts.getLastD []).asString

/-- Modelled from the spec: map a filename to a content-type tag. -/
def _get_language_from_extension (name : String) : Option String :=
  if name = "Dockerfile" then some "dockerfile"
  else if name = "Makefile" then some "makefile"
  else if (name.data.map Char.toLower).asString = "readme.txt" then some "markdown"
  else
    match fileExt name with
    | some "py" => some "python"
    | some "js" => some "javascript"
    | some "ts" => some "typescript"
    | some "jsx" => some "jsx"
    | some "tsx" => some "tsx"
    | some "md" => some "markdown"
    | some "html" => some "html"
    | some "xml" => some "xml"
    | some "json" => some "json"
    | some "yaml" => some "yaml"
    | some "yml" => some "yaml"
    | some "toml" => some "toml"
    | some "sh" => some "bash"
    | some "txt" => some "text"
    | _ => none

/-! ## 4.4 Git Scope Resolver

Modelled from the spec: `scope.py` (`ScopeConfig`,
`get_files_from_recent_commits`, `get_uncommitted_files`,
`get_files_from_glob_patterns`, `get_scoped_files`) is not among the provided
sources.  Git is an external process; we model the observable git state of a
working tree as data, and a query against a directory that is not a git
repository as a failing subprocess call whose error the resolver catches,
returning the empty set instead of raising.
-/

/-- The git-visible state of a repository working tree: the files touched by
each commit (newest first, root-relative), and the modified, staged,
untracked and git-ignored files of the working tree. -/
structure GitRepoState : Type where
  commits : List (List (List String))
  modified : List (List String)
  staged : List (List String)
  untracked : List (List String)
  gitIgnored : List (List String)

/-- Failure of an external git invocation. -/
inductive GitError : Type where
  | notAGitRepo : GitError

/-- Run a git query: against a directory that is not a git repository the
subprocess fails; otherwise it reports from the git state. -/
def runGitQuery {α : Type} (git : Option GitRepoState) (query : GitRepoState → α) :
    Except GitError α :=
  match git with
  | none => .error .notAGitRepo
  | some g => .ok (query g)

/-- Modelled from the spec: the set of absolute paths of files touched in
the most recent `num_commits` commits; files deleted and absent from the
working tree are excluded because only existing files can be scanned; a
failing git query yields the empty set rather than an error. -/
def get_files_from_recent_commits (root : List String) (tree : FSNode)
    (git : Option GitRepoState) (num_commits : Nat) : Finset (List String) :=
  match runGitQuery git (fun g => (g.commits.take num_commits).flatten) with
  | .error _ => ∅
  | .ok touched =>
    ((touched.filter fun rel => (findFile tree rel).isSome).map (root ++ ·)).toFinset

/-- Modelled from the spec: the set of absolute paths of modified, staged
and untracked files, excluding paths ignored by the repository ignore
rules; a failing git query yields the empty set rather than an error. -/
def get_uncommitted_files (root : List String) (tree : FSNode)
    (git : Option GitRepoState) : Finset (List String) :=
  match runGitQuery git (fun g =>
      (g.modified ++ g.staged ++ g.untracked).filter fun rel =>
        !g.gitIgnored.contains rel) with
  | .error _ => ∅
  | .ok rels => (rels.map (root ++ ·)).toFinset

/-! ## 4.5 Glob Scope Resolver -/

/-- Modelled from the spec: expand include-glob patterns below the root into
the set of absolute paths of matching files; only files are included,
multiple patterns are unioned with duplicates removed, and a pattern
matching nothing contributes nothing. -/
def get_files_from_glob_patterns (root : List String) (tree : FSNode)
    (patterns : List String) : Finset (List String) :=
  (((allFilePaths tree).filter fun rel =>
      patterns.any fun p => matchSegs (splitSlashes p) rel).map (root ++ ·)).toFinset

/-! ## 4.6 Scope Combiner -/

/-- Modelled from the spec: the scope configuration value object.
All three fields default to the unset value. -/
structure ScopeConfig : Type where
  recent : Option Nat := none
  uncommitted : Bool := false
  include_patterns : List String := []
deriving DecidableEq

/-- Derived property: the configuration restricts the scan exactly when one
of the three fields is set to a non-default value. -/
def ScopeConfig.is_scoped (c : ScopeConfig) : Bool :=
  c.recent.isSome || c.uncommitted || !c.include_patterns.isEmpty

/-- Modelled from the spec: resolve the combined scope restriction.
`none` means no restriction (every file eligible); a present set restricts
the scan to its members, and each active source adds its files to the set. -/
def get_scoped_files (root : List String) (tree : FSNode)
    (git : Option GitRepoState) (config : ScopeConfig) :
    Option (Finset (List String)) :=
  if config.is_scoped then
    let s0 : Finset (List String) := ∅
    let s1 := match config.recent with
      | some n => s0 ∪ get_files_from_recent_commits root tree git n
      | none => s0
    let s2 := if config.uncommitted then s1 ∪ get_uncommitted_files root tree git else s1
    let s3 := if !config.include_patterns.isEmpty then
        s2 ∪ get_files_from_glob_patterns root tree config.include_patterns
      else s2
    some s3
  else none

/-! ## 4.8 Scan Orchestrator

Modelled from the spec: `scan_repository` and the result data model of
`core.py` are not among the provided sources.  The orchestrator canonicalises
the root (failing on a missing or invalid root), loads the conventional
ignore file, merges it with caller-supplied ignore patterns and, when
requested, the built-in meta filenames, resolves the scope restriction, and
walks the tree in deterministic lexicographic order, pruning directories
matched by directory-style patterns, recording pattern-ignored, unreadable,
oversized and binary files as ignored and everything else as included.
-/

/-- One accepted file of a scan: absolute path, content, byte size and
optional language tag. -/
structure RepoFile : Type where
  path : List String
  content : List Nat
  size : Nat
  language : Option String
deriving DecidableEq

/-- The result of one scan: the accepted files in walk order, the
canonical root, the aggregate size and the diagnostic path lists. -/
structure ScanResult : Type where
  files : List RepoFile
  repo_root : List String
  total_size : Nat
  included_files : List (List String)
  ignored_files : List (List String)
deriving DecidableEq

/-- Fatal condition of a whole scan. -/
inductive ScanError : Type where
  | fileNotFound : ScanError
  | notADirectory : ScanError
deriving DecidableEq

/-- Built-in meta filenames excluded when `exclude_meta_files` is set. -/
def meta_file_names : List String :=
  [".gitignore", ".gitattributes", "README", "README.md", "README.txt",
   "LICENSE", "LICENSE.md", "LICENSE.txt", "CHANGELOG.md", "CONTRIBUTING.md"]

/-- The filter context threaded through the walk. -/
structure ScanCtx : Type where
  root : List String
  patterns : List String
  maxSize : Nat
  scopeSet : Option (Finset (List String))

/-- The accumulator of a walk: accepted files, ignored paths, total size. -/
structure ScanAcc : Type where
  files : List RepoFile
  ignored : List (List String)
  total : Nat

/-- Append two walk accumulators. -/
def ScanAcc.append (a b : ScanAcc) : ScanAcc :=
  ⟨a.files ++ b.files, a.ignored ++ b.ignored, a.total + b.total⟩

/-- The empty accumulator. -/
def ScanAcc.empty : ScanAcc := ⟨[], [], 0⟩

/-- Whether the scope restriction excludes this absolute path. -/
def scopeExcluded (scopeSet : Option (Finset (List String))) (path : List String) : Bool :=
  match scopeSet with
  | none => false
  | some s => decide (path ∉ s)

/-- Modelled from the spec: the per-file decision of the walk.  A file
outside the scope restriction is not a candidate; a candidate matched by an
ignore pattern, unreadable, over the size ceiling or binary is recorded as
ignored; otherwise its content is read and it is accepted. -/
def fileDecision (ctx : ScanCtx) (rp : List String) (bytes : List Nat)
    (readable : Bool) : ScanAcc :=
  let abs := ctx.root ++ rp
  if scopeExcluded ctx.scopeSet abs then ScanAcc.empty
  else if _should_ignore_file abs ctx.root ctx.patterns then ⟨[], [abs], 0⟩
  else if !readable then ⟨[], [abs], 0⟩
  else if !decide (bytes.length ≤ ctx.maxSize) then ⟨[], [abs], 0⟩
  else if _is_binary_file bytes then ⟨[], [abs], 0⟩
  else ⟨[⟨abs, bytes, bytes.length, _get_language_from_extension (rp.getLastD "")⟩],
        [], bytes.length⟩

/-- Order on named walk blocks: by entry name. -/
def byName {α : Type} (a b : String × α) : Prop := strLe a.1 b.1 = true

instance {α : Type} : DecidableRel (byName (α := α)) := fun a b =>
  inferInstanceAs (Decidable (_ = true))

instance {α : Type} : IsTotal (String × α) byName := ⟨fun a b => strLe_total a.1 b.1⟩

instance {α : Type} : IsTrans (String × α) byName := ⟨fun _ _ _ h h' => strLe_trans h h'⟩

/-- Concatenate the walk blocks of a directory, in list order. -/
def joinBlocks : List (String × ScanAcc) → ScanAcc
  | [] => ScanAcc.empty
  | b :: rest => b.2.append (joinBlocks rest)

mutual

/-- Modelled from the spec: walk one node at root-relative path `rp`.
A directory matched by a directory-style ignore pattern is pruned: its
contents are not walked.  Otherwise its entries are visited in deterministic
lexicographic order by name. -/
def scanNode (ctx : ScanCtx) (rp : List String) : FSNode → ScanAcc
  | .file bytes readable => fileDecision ctx rp bytes readable
  | .dir es =>
    if _dir_pruned (ctx.root ++ rp) ctx.root ctx.patterns then ScanAcc.empty
    else joinBlocks ((scanEntries ctx rp es).insertionSort byName)

/-- Walk every entry of a directory, pairing each block with its name. -/
def scanEntries (ctx : ScanCtx) (rp : List String) :
    List (String × FSNode) → List (String × ScanAcc)
  | [] => []
  | (n, c) :: rest => (n, scanNode ctx (rp ++ [n]) c) :: scanEntries ctx rp rest

end

/-- Modelled from the spec: scan a repository.  The environment is explicit:
`tree` is the directory tree at the root (`none` when the root does not
exist) and `git` the git state of the working tree (`none` when the root is
not a git repository).  A missing or invalid root is fatal and propagated;
everything else yields a result. -/
def scan_repository (root : List String) (tree : Option FSNode)
    (git : Option GitRepoState) (ignore_patterns : List String := [])
    (exclude_meta_files : Bool := false) (max_file_size : Nat := 1024 * 1024)
    (scope_config : ScopeConfig := {}) (verbose : Bool := false) :
    Except ScanError ScanResult :=
  match tree with
  | none => .error .fileNotFound
  | some (.file _ _) => .error .notADirectory
  | some (.dir es) =>
    let patterns := ignore_patterns ++ _parse_gitignore (.dir es) ++
      (if exclude_meta_files then meta_file_names else [])
    let scopeSet := get_scoped_files root (.dir es) git scope_config
    let acc := scanNode ⟨root, patterns, max_file_size, scopeSet⟩ [] (.dir es)
    let _ := verbose
    .ok ⟨acc.files, root, acc.total, acc.files.map (·.path), acc.ignored⟩

/-! ## Walk lemmas -/

theorem mem_joinBlocks_files {f : RepoFile} :
    ∀ {l : List (String × ScanAcc)},
      f ∈ (joinBlocks l).files ↔ ∃ b ∈ l, f ∈ b.2.files := by
  intro l
  induction l with
  | nil => simp [joinBlocks, ScanAcc.empty]
  | cons b rest ih => simp [joinBlocks, ScanAcc.append, ih]

theorem mem_joinBlocks_ignored {p : List String} :
    ∀ {l : List (String × ScanAcc)},
      p ∈ (joinBlocks l).ignored ↔ ∃ b ∈ l, p ∈ b.2.ignored := by
  intro l
  induction l with
  | nil => simp [joinBlocks, ScanAcc.empty]
  | cons b rest ih => simp [joinBlocks, ScanAcc.append, ih]

theorem joinBlocks_files_append :
    ∀ (l : List (String × ScanAcc)) (b : String × ScanAcc),
      (joinBlocks (b :: l)).files = b.2.files ++ (joinBlocks l).files := by
  intro l b
  rfl

theorem joinBlocks_total_eq_sum :
    ∀ {l : List (String × ScanAcc)},
      (∀ b ∈ l, b.2.total = (b.2.files.map (·.size)).sum) →
      (joinBlocks l).total = ((joinBlocks l).files.map (·.size)).sum := by
  intro l
  induction l with
  | nil => intro _; simp [joinBlocks, ScanAcc.empty]
  | cons b rest ih =>
    intro h
    have hb := h b (by simp)
    have hr := ih fun b' hb' => h b' (by simp [hb'])
    simp [joinBlocks, ScanAcc.append, hb, hr]

theorem mem_scanEntries {ctx : ScanCtx} {rp : List String} {b : String × ScanAcc} :
    ∀ {es : List (String × FSNode)},
      b ∈ scanEntries ctx rp es ↔
        ∃ nc ∈ es, b = (nc.1, scanNode ctx (rp ++ [nc.1]) nc.2) := by
  intro es
  induction es with
  | nil => simp [scanEntries]
  | cons nc rest ih =>
    obtain ⟨n, c⟩ := nc
    simp only [scanEntries, List.mem_cons, ih]
    constructor
    · rintro (rfl | ⟨nc', hmem, rfl⟩)
      · exact ⟨(n, c), Or.inl rfl, rfl⟩
      · exact ⟨nc', Or.inr hmem, rfl⟩
    · rintro ⟨nc', hmem | hmem, rfl⟩
      · rw [hmem]
        exact Or.inl rfl
      · exact Or.inr ⟨nc', hmem, rfl⟩

theorem map_fst_scanEntries {ctx : ScanCtx} {rp : List String} :
    ∀ {es : List (String × FSNode)},
      (scanEntries ctx rp es).map (·.1) = es.map (·.1) := by
  intro es
  induction es with
  | nil => rfl
  | cons nc rest ih =>
    obtain ⟨n, c⟩ := nc
    simp [scanEntries, ih]

/-- Every file accepted while walking a node lies below that node. -/
theorem scanNode_path_ext :
    ∀ (t : FSNode) (ctx : ScanCtx) (rp : List String),
      ∀ f ∈ (scanNode ctx rp t).files, ∃ u, f.path = ctx.root ++ (rp ++ u) := by
  intro t
  induction t using FSNode.myInduction with
  | hfile b r =>
    intro ctx rp f hf
    refine ⟨[], ?_⟩
    simp only [scanNode, fileDecision] at hf
    split at hf
    · simp [ScanAcc.empty] at hf
    · split at hf
      · simp at hf
      · split at hf
        · simp at hf
        · split at hf
          · simp at hf
          · split at hf
            · simp at hf
            · simp at hf
              simp [hf]
  | hdir es ih =>
    intro ctx rp f hf
    simp only [scanNode] at hf
    split at hf
    · simp [ScanAcc.empty] at hf
    · obtain ⟨b, hb, hfb⟩ := mem_joinBlocks_files.mp hf
      have hb' : b ∈ scanEntries ctx rp es :=
        ((List.perm_insertionSort byName _).mem_iff).mp hb
      obtain ⟨nc, hnc, rfl⟩ := mem_scanEntries.mp hb'
      obtain ⟨u, hu⟩ := ih nc hnc ctx (rp ++ [nc.1]) f hfb
      exact ⟨nc.1 :: u, by simpa using hu⟩

theorem namesNodup_nodup : ∀ {l : List String}, namesNodup l = true → l.Nodup := by
  intro l
  induction l with
  | nil => intro _; exact List.nodup_nil
  | cons n ns ih =>
    intro h
    simp only [namesNodup, Bool.and_eq_true, Bool.not_eq_true'] at h
    refine List.nodup_cons.mpr ⟨?_, ih h.2⟩
    intro hmem
    have : ns.contains n = true := by
      simpa [List.elem_iff] using hmem
    rw [this] at h
    exact Bool.noConfusion h.1

theorem wfEntriesList_mem :
    ∀ {es : List (String × FSNode)}, wfEntriesList es = true →
      ∀ nc ∈ es, wfNode nc.2 = true := by
  intro es
  induction es with
  | nil => intro _ nc h; simp at h
  | cons b rest ih =>
    obtain ⟨n, c⟩ := b
    intro h nc hnc
    simp only [wfEntriesList, Bool.and_eq_true] at h
    rcases List.mem_cons.mp hnc with rfl | hmem
    · exact h.1
    · exact ih h.2 nc hmem

/-- Concatenating blocks whose names are strictly increasing, where every
path of a block starts with the block name, yields lexicographically sorted
paths. -/
theorem joinBlocks_pairwise (base : List String) :
    ∀ (l : List (String × ScanAcc)),
      (∀ b ∈ l, List.Pairwise (fun p q => pathLtB p q = true) (b.2.files.map (·.path))) →
      (∀ b ∈ l, ∀ f ∈ b.2.files, ∃ u, f.path = base ++ (b.1 :: u)) →
      List.Pairwise (fun a b => strLt a.1 b.1 = true) l →
      List.Pairwise (fun p q => pathLtB p q = true)
        ((joinBlocks l).files.map (·.path)) := by
  intro l
  induction l with
  | nil => intro _ _ _; simp [joinBlocks, ScanAcc.empty]
  | cons b rest ih =>
    intro h1 h2 h3
    rw [joinBlocks_files_append, List.map_append, List.pairwise_append]
    refine ⟨h1 b (by simp), ?_, ?_⟩
    · exact ih (fun b' hb' => h1 b' (by simp [hb']))
        (fun b' hb' => h2 b' (by simp [hb'])) (List.Pairwise.sublist (by simp) h3)
    · intro p hp q hq
      obtain ⟨f, hf, rfl⟩ := List.mem_map.mp hp
      obtain ⟨g, hg, rfl⟩ := List.mem_map.mp hq
      obtain ⟨b', hb', hgb'⟩ := mem_joinBlocks_files.mp hg
      obtain ⟨u, hu⟩ := h2 b (by simp) f hf
      obtain ⟨v, hv⟩ := h2 b' (by simp [hb']) g hgb'
      have hlt : strLt b.1 b'.1 = true :=
        (List.pairwise_cons.mp h3).1 b' hb'
      rw [hu, hv, pathLtB_append_same]
      exact pathLtB_cons_of_strLt hlt u v

/-- Walking a well-formed node lists the accepted files in strictly
increasing lexicographic path order. -/
theorem scanNode_pairwise :
    ∀ (t : FSNode), wfNode t = true → ∀ (ctx : ScanCtx) (rp : List String),
      List.Pairwise (fun p q => pathLtB p q = true)
        ((scanNode ctx rp t).files.map (·.path)) := by
  intro t
  induction t using FSNode.myInduction with
  | hfile b r =>
    intro _ ctx rp
    simp only [scanNode, fileDecision]
    split
    · simp [ScanAcc.empty]
    · split
      · simp
      · split
        · simp
        · split
          · simp
          · split <;> simp
  | hdir es ih =>
    intro hwf ctx rp
    simp only [wfNode, Bool.and_eq_true] at hwf
    simp only [scanNode]
    split
    · simp [ScanAcc.empty]
    · set l := (scanEntries ctx rp es).insertionSort byName with hl
      have hperm : l.Perm (scanEntries ctx rp es) := List.perm_insertionSort byName _
      have hmem_es : ∀ b ∈ l, ∃ nc ∈ es, b = (nc.1, scanNode ctx (rp ++ [nc.1]) nc.2) :=
        fun b hb => mem_scanEntries.mp (hperm.mem_iff.mp hb)
      refine joinBlocks_pairwise (ctx.root ++ rp) l ?_ ?_ ?_
      · intro b hb
        obtain ⟨nc, hnc, rfl⟩ := hmem_es b hb
        exact ih nc hnc (wfEntriesList_mem hwf.2 nc hnc) ctx (rp ++ [nc.1])
      · intro b hb f hf
        obtain ⟨nc, hnc, rfl⟩ := hmem_es b hb
        obtain ⟨u, hu⟩ := scanNode_path_ext nc.2 ctx (rp ++ [nc.1]) f hf
        exact ⟨u, by simpa [List.append_assoc] using hu⟩
      · have hsorted : List.Pairwise byName l :=
          List.sorted_insertionSort byName (scanEntries ctx rp es)
        have hnames : (l.map (·.1)).Nodup := by
          have h1 : ((scanEntries ctx rp es).map (·.1)).Nodup := by
            rw [map_fst_scanEntries]
            exact namesNodup_nodup hwf.1
          exact ((hperm.map (·.1)).nodup_iff).mpr h1
        have hne : List.Pairwise (fun a b : String × ScanAcc => a.1 ≠ b.1) l :=
          List.pairwise_map.mp hnames
        exact (hsorted.and hne).imp fun h => strLt_of_strLe_of_ne h.1 h.2

/-- The aggregated size of a walk equals the sum of the accepted sizes. -/
theorem scanNode_total :
    ∀ (t : FSNode) (ctx : ScanCtx) (rp : List String),
      (scanNode ctx rp t).total = ((scanNode ctx rp t).files.map (·.size)).sum := by
  intro t
  induction t using FSNode.myInduction with
  | hfile b r =>
    intro ctx rp
    simp only [scanNode, fileDecision]
    split
    · simp [ScanAcc.empty]
    · split
      · simp
      · split
        · simp
        · split
          · simp
          · split <;> simp
  | hdir es ih =>
    intro ctx rp
    simp only [scanNode]
    split
    · simp [ScanAcc.empty]
    · refine joinBlocks_total_eq_sum ?_
      intro b hb
      have hb' : b ∈ scanEntries ctx rp es :=
        ((List.perm_insertionSort byName _).mem_iff).mp hb
      obtain ⟨nc, hnc, rfl⟩ := mem_scanEntries.mp hb'
      exact ih nc hnc ctx (rp ++ [nc.1])

/-- With no ignore patterns and no scope restriction, every readable,
under-size, non-binary file of the tree is accepted by the walk. -/
theorem scanNode_mem_found :
    ∀ (t : FSNode) (ctx : ScanCtx) (rp rel : List String) (b : List Nat),
      ctx.patterns = [] → ctx.scopeSet = none →
      findFile t rel = some (b, true) → b.length ≤ ctx.maxSize →
      _is_binary_file b = false →
      (ctx.root ++ (rp ++ rel)) ∈ (scanNode ctx rp t).files.map (·.path) := by
  intro t
  induction t using FSNode.myInduction with
  | hfile bytes r =>
    intro ctx rp rel b hpat hscope hfind hsize hbin
    match rel with
    | _ :: _ => exact absurd hfind (by simp [findFile])
    | [] =>
      have hb : bytes = b ∧ r = true := by
        simpa [findFile] using hfind
      obtain ⟨rfl, rfl⟩ := hb
      have h1 : scopeExcluded ctx.scopeSet (ctx.root ++ rp) = false := by
        simp [scopeExcluded, hscope]
      have h2 : _should_ignore_file (ctx.root ++ rp) ctx.root ctx.patterns = false := by
        simp [_should_ignore_file, hpat]
      simp [scanNode, fileDecision, h1, h2, hsize, hbin]
  | hdir es ih =>
    intro ctx rp rel b hpat hscope hfind hsize hbin
    match rel with
    | [] => exact absurd hfind (by simp [findFile])
    | n :: rest =>
      rw [findFile] at hfind
      obtain ⟨c, hmem, hfindc⟩ := findInEntries_some hfind
      have hih := ih (n, c) hmem ctx (rp ++ [n]) rest b hpat hscope hfindc hsize hbin
      simp only [scanNode, _dir_pruned, hpat, List.any_nil, Bool.false_eq_true,
        if_false]
      obtain ⟨f, hf, hfpath⟩ := List.mem_map.mp hih
      refine List.mem_map.mpr ⟨f, ?_, ?_⟩
      · refine mem_joinBlocks_files.mpr
          ⟨(n, scanNode ctx (rp ++ [n]) c), ?_, hf⟩
        exact ((List.perm_insertionSort byName _).mem_iff).mpr
          (mem_scanEntries.mpr ⟨(n, c), hmem, rfl⟩)
      · rw [hfpath]
        simp

/-- With no ignore patterns and no scope restriction, an unreadable file of
the tree is recorded as ignored; the walk is not aborted. -/
theorem scanNode_ignored_unreadable :
    ∀ (t : FSNode) (ctx : ScanCtx) (rp rel : List String) (b : List Nat),
      ctx.patterns = [] → ctx.scopeSet = none →
      findFile t rel = some (b, false) →
      (ctx.root ++ (rp ++ rel)) ∈ (scanNode ctx rp t).ignored := by
  intro t
  induction t using FSNode.myInduction with
  | hfile bytes r =>
    intro ctx rp rel b hpat hscope hfind
    match rel with
    | _ :: _ => exact absurd hfind (by simp [findFile])
    | [] =>
      have hb : bytes = b ∧ r = false := by
        simpa [findFile] using hfind
      obtain ⟨rfl, rfl⟩ := hb
      simp [scanNode, fileDecision, hscope, hpat, scopeExcluded,
        _should_ignore_file]
  | hdir es ih =>
    intro ctx rp rel b hpat hscope hfind
    match rel with
    | [] => exact absurd hfind (by simp [findFile])
    | n :: rest =>
      rw [findFile] at hfind
      obtain ⟨c, hmem, hfindc⟩ := findInEntries_some hfind
      have hih := ih (n, c) hmem ctx (rp ++ [n]) rest b hpat hscope hfindc
      simp only [scanNode, _dir_pruned, hpat, List.any_nil, Bool.false_eq_true,
        if_false]
      have : (ctx.root ++ (rp ++ (n :: rest))) =
          (ctx.root ++ ((rp ++ [n]) ++ rest)) := by simp
      rw [this]
      refine mem_joinBlocks_ignored.mpr
        ⟨(n, scanNode ctx (rp ++ [n]) c), ?_, hih⟩
      exact ((List.perm_insertionSort byName _).mem_iff).mpr
        (mem_scanEntries.mpr ⟨(n, c), hmem, rfl⟩)

/-- Under an empty scope restriction the walk accepts no file at all. -/
theorem scanNode_scope_empty :
    ∀ (t : FSNode) (ctx : ScanCtx) (rp : List String),
      ctx.scopeSet = some ∅ → (scanNode ctx rp t).files = [] := by
  intro t
  induction t using FSNode.myInduction with
  | hfile b r =>
    intro ctx rp hscope
    simp [scanNode, fileDecision, hscope, scopeExcluded, ScanAcc.empty]
  | hdir es ih =>
    intro ctx rp hscope
    simp only [scanNode]
    split
    · simp [ScanAcc.empty]
    · rw [List.eq_nil_iff_forall_not_mem]
      intro f hf
      obtain ⟨b, hb, hfb⟩ := mem_joinBlocks_files.mp hf
      have hb' : b ∈ scanEntries ctx rp es :=
        ((List.perm_insertionSort byName _).mem_iff).mp hb
      obtain ⟨nc, hnc, rfl⟩ := mem_scanEntries.mp hb'
      rw [ih nc hnc ctx (rp ++ [nc.1]) hscope] at hfb
      exact absurd hfb (List.not_mem_nil f)

/-! ## Result projections

Projections of a successful scan, used to state results; an erroneous scan
projects to the empty value.
-/

/-- The accepted files of a successful scan. -/
def okFiles : Except ScanError ScanResult → List RepoFile
  | .ok r => r.files
  | .error _ => []

/-- The ignored paths of a successful scan. -/
def okIgnored : Except ScanError ScanResult → List (List String)
  | .ok r => r.ignored_files
  | .error _ => []

/-- The included paths of a successful scan. -/
def okIncluded : Except ScanError ScanResult → List (List String)
  | .ok r => r.included_files
  | .error _ => []

/-- The aggregate size of a successful scan. -/
def okTotal : Except ScanError ScanResult → Nat
  | .ok r => r.total_size
  | .error _ => 0

/-! ## Output handling

Embedded from `src/src/repo2md/output.py`.  `handle_output` is sequential:
it defaults to stdout when no output option is selected, then writes the
file, copies to the clipboard and prints to stdout in that order.  A failed
file write, an unavailable clipboard dependency or a failed clipboard copy
each print an error and call `sys.exit(1)`, aborting the remaining sinks.
`print(content)` delivers the content followed by a newline.  The module
flag `PYPERCLIP_AVAILABLE` and the success of the external effects are
modelled as an explicit environment.
-/

/-- The environment `handle_output` runs in: whether the optional pyperclip
dependency imported, and whether the file write and clipboard copy succeed. -/
structure OutputEnv : Type where
  pyperclip_available : Bool
  file_write_ok : Bool
  clipboard_copy_ok : Bool
deriving DecidableEq

/-- The observable effects of one `handle_output` call: content delivered to
each sink, and the exit status when `sys.exit` was called. -/
structure OutputTrace : Type where
  file_written : Option (String × String)
  clipboard : Option String
  stdout : Option String
  exit : Option Nat
deriving DecidableEq

/-- Final stage: print the content to stdout when requested. -/
def stdoutStage (content : String) (written : Option (String × String))
    (clip : Option String) (to_stdout : Bool) : OutputTrace :=
  if to_stdout then ⟨written, clip, some (content ++ "\n"), none⟩
  else ⟨written, clip, none, none⟩

/-- Clipboard stage: check the dependency flag at call time; absence or a
failed copy prints an error and exits with status 1. -/
def clipboardStage (env : OutputEnv) (content : String)
    (written : Option (String × String)) (to_clipboard to_stdout : Bool) :
    OutputTrace :=
  if to_clipboard then
    if !env.pyperclip_available then ⟨written, none, none, some 1⟩
    else if env.clipboard_copy_ok then
      stdoutStage content written (some content) to_stdout
    else ⟨written, none, none, some 1⟩
  else stdoutStage content written none to_stdout

/-- Embedded from `output.py`: handle output to file, clipboard and/or
stdout; stdout is the default when no output option is specified. -/
def handle_output (env : OutputEnv) (content : String)
    (output_file : Option String := none) (to_clipboard : Bool := false)
    (to_stdout : Bool := false) : OutputTrace :=
  let to_stdout := if output_file.isNone && !to_clipboard && !to_stdout
    then true else to_stdout
  match output_file with
  | some p =>
    if env.file_write_ok then
      clipboardStage env content (some (p, content)) to_clipboard to_stdout
    else ⟨none, none, none, some 1⟩
  | none => clipboardStage env content none to_clipboard to_stdout

/-! ## Claims -/

/-- C1: for every repository root and every scoped configuration, the
resolved scope restriction equals the set union of the recent-commits file
set (when recent is set), the uncommitted-changes file set (when uncommitted
is true) and the glob-expansion file set (when include patterns are
non-empty); an active source that resolves to the empty set contributes
nothing without short-circuiting the other sources, since the union with the
empty set is the identity. -/
theorem c1_scope_union (root : List String) (tree : FSNode)
    (git : Option GitRepoState) (config : ScopeConfig)
    (h : config.is_scoped = true) :
    get_scoped_files root tree git config = some (
      (match config.recent with
        | some n => get_files_from_recent_commits root tree git n
        | none => ∅) ∪
      (if config.uncommitted then get_uncommitted_files root tree git else ∅) ∪
      (if config.include_patterns.isEmpty then ∅
        else get_files_from_glob_patterns root tree config.include_patterns)) := by
  simp only [get_scoped_files, h, if_true]
  cases hr : config.recent <;>
    cases hu : config.uncommitted <;>
      cases hp : config.include_patterns.isEmpty <;>
        simp [hr, hu, hp, Finset.union_assoc]

/-- Witness for C1, instantiating the scope union law of the spec: with
`recent(n=1) = {A}` and `uncommitted = {B}`, the combined scope is `{A, B}`. -/
theorem c1_scope_union_witness :
    (ScopeConfig.mk (some 1) true []).is_scoped = true ∧
    get_scoped_files ["repo"]
        (.dir [("a.py", .file [97] true), ("b.py", .file [98] true)])
        (some ⟨[[["a.py"]]], [["b.py"]], [], [], []⟩)
        ⟨some 1, true, []⟩ =
      some {["repo", "a.py"], ["repo", "b.py"]} := by
  refine ⟨by decide, ?_⟩
  rw [c1_scope_union _ _ _ _ (by decide)]
  decide

/-- C2: scope resolution distinguishes the absence of a restriction from an
empty restriction: a default configuration resolves to none (every file
eligible), while a scoped configuration whose sole source matches nothing
resolves to the empty set, and a scan under it produces zero files. -/
theorem c2_none_vs_empty (root : List String) (es : List (String × FSNode))
    (git : Option GitRepoState) (ignore_patterns : List String)
    (exclude_meta_files : Bool) (max_file_size : Nat) (verbose : Bool)
    (hglob : get_files_from_glob_patterns root (.dir es) ["*.none"] = ∅) :
    get_scoped_files root (.dir es) git {} = none ∧
    get_scoped_files root (.dir es) git ⟨none, false, ["*.none"]⟩ = some ∅ ∧
    okFiles (scan_repository root (some (.dir es)) git ignore_patterns
      exclude_meta_files max_file_size ⟨none, false, ["*.none"]⟩ verbose) = [] := by
  have h2 : get_scoped_files root (.dir es) git ⟨none, false, ["*.none"]⟩ = some ∅ := by
    simp [get_scoped_files, ScopeConfig.is_scoped, hglob]
  refine ⟨rfl, h2, ?_⟩
  simp only [scan_repository, okFiles]
  exact scanNode_scope_empty _ _ _ h2

/-- Witness for C2: a tree with one python file, scoped by a pattern
matching nothing. -/
theorem c2_none_vs_empty_witness :
    get_files_from_glob_patterns ["r"] (.dir [("a.py", .file [97] true)])
      ["*.none"] = ∅ ∧
    (get_scoped_files ["r"] (.dir [("a.py", .file [97] true)]) none {} = none ∧
     get_scoped_files ["r"] (.dir [("a.py", .file [97] true)]) none
       ⟨none, false, ["*.none"]⟩ = some ∅ ∧
     okFiles (scan_repository ["r"] (some (.dir [("a.py", .file [97] true)]))
       none [] false 100 ⟨none, false, ["*.none"]⟩ false) = []) :=
  ⟨by decide, c2_none_vs_empty ["r"] [("a.py", .file [97] true)] none [] false
    100 false (by decide)⟩

/-- C3: for every positive size ceiling, a file is eligible exactly when its
byte size does not exceed the ceiling and its leading byte window neither
contains a NUL byte nor fails to decode as UTF-8; a file of exactly the
ceiling size is included when not binary, a file one byte larger is excluded
regardless of content, and a file whose window contains a NUL byte is
excluded even when under the limit. -/
theorem c3_size_binary_eligibility (bytes : List Nat) (max_file_size : Nat)
    (hpos : 0 < max_file_size) :
    (eligible bytes max_file_size = true ↔
      (bytes.length ≤ max_file_size ∧
       (bytes.take binary_window).contains 0 = false ∧
       validUtf8 (bytes.take binary_window) = true)) ∧
    (bytes.length = max_file_size → _is_binary_file bytes = false →
      eligible bytes max_file_size = true) ∧
    (bytes.length = max_file_size + 1 → eligible bytes max_file_size = false) ∧
    ((bytes.take binary_window).contains 0 = true →
      eligible bytes max_file_size = false) := by
  have hiff : eligible bytes max_file_size = true ↔
      (bytes.length ≤ max_file_size ∧
       (bytes.take binary_window).contains 0 = false ∧
       validUtf8 (bytes.take binary_window) = true) := by
    simp [eligible, _is_binary_file]
  refine ⟨hiff, ?_, ?_, ?_⟩
  · intro hlen hbin
    simp [eligible, hbin, hlen]
  · intro hlen
    have h : decide (bytes.length ≤ max_file_size) = false := by
      simp only [decide_eq_false_iff_not]
      omega
    simp [eligible, h]
  · intro hnul
    have hmem : (0 : Nat) ∈ List.take binary_window bytes := by
      simpa using hnul
    simp only [eligible, _is_binary_file]
    simp
    intro _ hnot
    exact absurd hmem hnot

/-- Witness for C3: a two-byte file whose first byte is NUL, with ceiling 4. -/
theorem c3_size_binary_eligibility_witness :
    0 < 4 ∧
    ((eligible [0, 65] 4 = true ↔
      (List.length [0, 65] ≤ 4 ∧
       (List.take binary_window [0, 65]).contains 0 = false ∧
       validUtf8 (List.take binary_window [0, 65]) = true)) ∧
     (List.length [0, 65] = 4 → _is_binary_file [0, 65] = false →
       eligible [0, 65] 4 = true) ∧
     (List.length [0, 65] = 4 + 1 → eligible [0, 65] 4 = false) ∧
     ((List.take binary_window [0, 65]).contains 0 = true →
       eligible [0, 65] 4 = false)) :=
  ⟨by decide, c3_size_binary_eligibility [0, 65] 4 (by decide)⟩

/-- C6: against a directory that is not a git repository, both git scope
queries — the files of the most recent commits and the uncommitted files —
return the empty set rather than an error, for every requested commit
count of at least one. -/
theorem c6_non_git_repo_empty (root : List String) (tree : FSNode) (n : Nat)
    (hn : 1 ≤ n) :
    get_files_from_recent_commits root tree none n = ∅ ∧
    get_uncommitted_files root tree none = ∅ :=
  ⟨rfl, rfl⟩

theorem count_one_of_nodup_mem {α : Type} [BEq α] [LawfulBEq α] {a : α}
    {l : List α} (hnd : l.Nodup) (hmem : a ∈ l) : List.count a l = 1 := by
  induction l with
  | nil => simp at hmem
  | cons x xs ih =>
    rcases List.mem_cons.mp hmem with rfl | hmem'
    · have h0 : List.count a xs = 0 :=
        List.count_eq_zero.mpr (List.nodup_cons.mp hnd).1
      rw [List.count_cons_self, h0]
    · have hne : a ≠ x := by
        rintro rfl
        exact (List.nodup_cons.mp hnd).1 hmem'
      rw [List.count_cons_of_ne hne]
      exact ih (List.nodup_cons.mp hnd).2 hmem'

/-- C4: a pattern ending in a slash matches a root-relative path exactly
when some path segment equals the pattern directory name, not merely a
suffix of a segment; and the scan prunes matched directories, so the
directory-style pattern applied to a tree containing a pycache file and a
src file yields only the src file. -/
theorem c4_directory_pattern (rel : List String) (pattern : String)
    (hdir : endsWithSlash pattern = true) :
    (matches_pattern rel pattern = true ↔ dropLastChar pattern ∈ rel) ∧
    matches_pattern ["my__pycache__", "x.py"] "__pycache__/" = false ∧
    (okFiles (scan_repository ["repo"]
        (some (.dir [("__pycache__", .dir [("x.py", .file [104] true)]),
                     ("src", .dir [("x.py", .file [104] true)])]))
        none ["__pycache__/"] false 100 {} false)).map (·.path) =
      [["repo", "src", "x.py"]] := by
  refine ⟨?_, by decide, by decide⟩
  rw [matches_pattern, if_pos hdir]
  simp [List.contains]

/-- Witness for C4 at the pycache pattern and a path that contains the
directory segment. -/
theorem c4_directory_pattern_witness :
    endsWithSlash "__pycache__/" = true ∧
    ((matches_pattern ["__pycache__", "x.py"] "__pycache__/" = true ↔
        dropLastChar "__pycache__/" ∈ ["__pycache__", "x.py"]) ∧
     matches_pattern ["my__pycache__", "x.py"] "__pycache__/" = false ∧
     (okFiles (scan_repository ["repo"]
         (some (.dir [("__pycache__", .dir [("x.py", .file [104] true)]),
                      ("src", .dir [("x.py", .file [104] true)])]))
         none ["__pycache__/"] false 100 {} false)).map (·.path) =
       [["repo", "src", "x.py"]]) :=
  ⟨by decide, c4_directory_pattern ["__pycache__", "x.py"] "__pycache__/"
    (by decide)⟩

/-- C5: a failure to read a single file never aborts the scan: with a valid
root the scan succeeds, and the unreadable file is recorded as ignored while
the walk continues; only a missing root (file-not-found) or a root that is
not a directory is fatal, and that condition is propagated to the caller as
the error value of the scan. -/
theorem c5_per_file_failure (root : List String) (git : Option GitRepoState)
    (es : List (String × FSNode)) (fb : List Nat) (fr : Bool)
    (ignore_patterns : List String) (exclude_meta_files : Bool)
    (max_file_size : Nat) (scope_config : ScopeConfig) (verbose : Bool)
    (rel : List String) (b : List Nat)
    (hgitign : _parse_gitignore (.dir es) = [])
    (hfind : findFile (.dir es) rel = some (b, false)) :
    scan_repository root none git ignore_patterns exclude_meta_files
      max_file_size scope_config verbose = .error .fileNotFound ∧
    scan_repository root (some (.file fb fr)) git ignore_patterns
      exclude_meta_files max_file_size scope_config verbose =
      .error .notADirectory ∧
    (scan_repository root (some (.dir es)) git ignore_patterns
      exclude_meta_files max_file_size scope_config verbose).isOk = true ∧
    (root ++ rel) ∈ okIgnored (scan_repository root (some (.dir es)) git []
      false max_file_size {} verbose) := by
  refine ⟨rfl, rfl, rfl, ?_⟩
  have h := scanNode_ignored_unreadable (.dir es)
    ⟨root, [] ++ _parse_gitignore (.dir es) ++
      (if (false : Bool) then meta_file_names else []),
     max_file_size, get_scoped_files root (.dir es) git {}⟩
    [] rel b (by simp [hgitign]) rfl hfind
  simpa [scan_repository, okIgnored] using h

/-- Witness for C5: a tree with one unreadable and one readable file. -/
theorem c5_per_file_failure_witness :
    _parse_gitignore (.dir [("bad.txt", .file [1] false),
                            ("good.py", .file [104] true)]) = [] ∧
    findFile (.dir [("bad.txt", .file [1] false),
                    ("good.py", .file [104] true)]) ["bad.txt"] =
      some ([1], false) ∧
    (scan_repository ["r"] none none [] false 100 {} false =
       .error .fileNotFound ∧
     scan_repository ["r"] (some (.file [9] true)) none [] false 100 {} false =
       .error .notADirectory ∧
     (scan_repository ["r"] (some (.dir [("bad.txt", .file [1] false),
        ("good.py", .file [104] true)])) none [] false 100 {} false).isOk = true ∧
     (["r"] ++ ["bad.txt"]) ∈ okIgnored (scan_repository ["r"]
       (some (.dir [("bad.txt", .file [1] false),
                    ("good.py", .file [104] true)])) none [] false 100 {} false)) :=
  ⟨by decide, by decide,
   c5_per_file_failure ["r"] none
     [("bad.txt", .file [1] false), ("good.py", .file [104] true)]
     [9] true [] false 100 {} false ["bad.txt"] [1] (by decide) (by decide)⟩

/-- C7: for every valid root and filter configuration, the scan lists the
accepted files in strictly increasing lexicographic order by path, and two
scans of the same unchanged tree yield identical results (the embedding is
a pure function of the tree and configuration). -/
theorem c7_deterministic_order (root : List String) (es : List (String × FSNode))
    (git : Option GitRepoState) (ignore_patterns : List String)
    (exclude_meta_files : Bool) (max_file_size : Nat)
    (scope_config : ScopeConfig) (verbose : Bool)
    (hwf : wfNode (.dir es) = true) :
    List.Pairwise (fun p q => pathLtB p q = true)
      ((okFiles (scan_repository root (some (.dir es)) git ignore_patterns
        exclude_meta_files max_file_size scope_config verbose)).map (·.path)) ∧
    scan_repository root (some (.dir es)) git ignore_patterns
        exclude_meta_files max_file_size scope_config verbose =
      scan_repository root (some (.dir es)) git ignore_patterns
        exclude_meta_files max_file_size scope_config verbose := by
  refine ⟨?_, rfl⟩
  have h := scanNode_pairwise (.dir es) hwf
    ⟨root, ignore_patterns ++ _parse_gitignore (.dir es) ++
      (if exclude_meta_files then meta_file_names else []),
     max_file_size, get_scoped_files root (.dir es) git scope_config⟩ []
  simpa [scan_repository, okFiles] using h

/-- Witness for C7: a tree presented in non-lexicographic order. -/
theorem c7_deterministic_order_witness :
    wfNode (.dir [("b.py", .file [98] true), ("a", .dir [("z.py", .file [1] true),
      ("y.py", .file [2] true)])]) = true ∧
    (List.Pairwise (fun p q => pathLtB p q = true)
      ((okFiles (scan_repository ["r"] (some (.dir [("b.py", .file [98] true),
        ("a", .dir [("z.py", .file [1] true), ("y.py", .file [2] true)])]))
        none [] false 100 {} false)).map (·.path)) ∧
     scan_repository ["r"] (some (.dir [("b.py", .file [98] true),
        ("a", .dir [("z.py", .file [1] true), ("y.py", .file [2] true)])]))
        none [] false 100 {} false =
      scan_repository ["r"] (some (.dir [("b.py", .file [98] true),
        ("a", .dir [("z.py", .file [1] true), ("y.py", .file [2] true)])]))
        none [] false 100 {} false) :=
  ⟨by decide, c7_deterministic_order ["r"]
    [("b.py", .file [98] true), ("a", .dir [("z.py", .file [1] true),
      ("y.py", .file [2] true)])] none [] false 100 {} false (by decide)⟩

/-- C8: every result of a successful scan satisfies the data-model
invariant: every accepted path descends from the root, the total size is
the sum of the accepted sizes, the included-files diagnostic matches the
accepted files one to one, and under the empty filter configuration every
readable, under-size, non-binary file of a well-formed tree appears exactly
once among the accepted paths. -/
theorem c8_scan_invariants (root : List String) (es : List (String × FSNode))
    (git : Option GitRepoState) (ignore_patterns : List String)
    (exclude_meta_files : Bool) (max_file_size : Nat)
    (scope_config : ScopeConfig) (verbose : Bool)
    (hwf : wfNode (.dir es) = true) :
    (∀ f ∈ okFiles (scan_repository root (some (.dir es)) git ignore_patterns
        exclude_meta_files max_file_size scope_config verbose),
      ∃ u, f.path = root ++ u) ∧
    okTotal (scan_repository root (some (.dir es)) git ignore_patterns
        exclude_meta_files max_file_size scope_config verbose) =
      ((okFiles (scan_repository root (some (.dir es)) git ignore_patterns
        exclude_meta_files max_file_size scope_config verbose)).map (·.size)).sum ∧
    okIncluded (scan_repository root (some (.dir es)) git ignore_patterns
        exclude_meta_files max_file_size scope_config verbose) =
      (okFiles (scan_repository root (some (.dir es)) git ignore_patterns
        exclude_meta_files max_file_size scope_config verbose)).map (·.path) ∧
    (ignore_patterns = [] → exclude_meta_files = false → scope_config = {} →
      _parse_gitignore (.dir es) = [] →
      ∀ rel b, findFile (.dir es) rel = some (b, true) →
        b.length ≤ max_file_size → _is_binary_file b = false →
        List.count (root ++ rel)
          ((okFiles (scan_repository root (some (.dir es)) git ignore_patterns
            exclude_meta_files max_file_size scope_config verbose)).map (·.path)) = 1) := by
  refine ⟨?_, ?_, rfl, ?_⟩
  · intro f hf
    have hf' : f ∈ (scanNode
        ⟨root, ignore_patterns ++ _parse_gitignore (.dir es) ++
          (if exclude_meta_files then meta_file_names else []),
         max_file_size, get_scoped_files root (.dir es) git scope_config⟩
        [] (.dir es)).files := by
      simpa [scan_repository, okFiles] using hf
    obtain ⟨u, hu⟩ := scanNode_path_ext (.dir es) _ [] f hf'
    exact ⟨u, by simpa using hu⟩
  · have h := scanNode_total (.dir es)
      ⟨root, ignore_patterns ++ _parse_gitignore (.dir es) ++
        (if exclude_meta_files then meta_file_names else []),
       max_file_size, get_scoped_files root (.dir es) git scope_config⟩ []
    simpa [scan_repository, okTotal, okFiles] using h
  · rintro rfl rfl rfl hgitign rel b hfind hsize hbin
    have hmem := scanNode_mem_found (.dir es)
      ⟨root, [] ++ _parse_gitignore (.dir es) ++
        (if (false : Bool) then meta_file_names else []),
       max_file_size, get_scoped_files root (.dir es) git {}⟩
      [] rel b (by simp [hgitign]) rfl hfind hsize hbin
    have hpw := scanNode_pairwise (.dir es) hwf
      ⟨root, [] ++ _parse_gitignore (.dir es) ++
        (if (false : Bool) then meta_file_names else []),
       max_file_size, get_scoped_files root (.dir es) git {}⟩ []
    have hnodup : ((scanNode
        ⟨root, [] ++ _parse_gitignore (.dir es) ++
          (if (false : Bool) then meta_file_names else []),
         max_file_size, get_scoped_files root (.dir es) git {}⟩
        [] (.dir es)).files.map (·.path)).Nodup :=
      hpw.imp fun h => pathLtB_ne h
    have hcount := count_one_of_nodup_mem hnodup (by simpa using hmem)
    simpa [scan_repository, okFiles] using hcount

/-- Witness for C8: a two-file tree scanned with the empty configuration. -/
theorem c8_scan_invariants_witness :
    wfNode (.dir [("a.py", .file [97] true), ("b.py", .file [98, 99] true)]) = true ∧
    ((∀ f ∈ okFiles (scan_repository ["r"] (some (.dir [("a.py", .file [97] true),
        ("b.py", .file [98, 99] true)])) none [] false 100 {} false),
      ∃ u, f.path = ["r"] ++ u) ∧
     okTotal (scan_repository ["r"] (some (.dir [("a.py", .file [97] true),
        ("b.py", .file [98, 99] true)])) none [] false 100 {} false) =
      ((okFiles (scan_repository ["r"] (some (.dir [("a.py", .file [97] true),
        ("b.py", .file [98, 99] true)])) none [] false 100 {} false)).map (·.size)).sum ∧
     okIncluded (scan_repository ["r"] (some (.dir [("a.py", .file [97] true),
        ("b.py", .file [98, 99] true)])) none [] false 100 {} false) =
      (okFiles (scan_repository ["r"] (some (.dir [("a.py", .file [97] true),
        ("b.py", .file [98, 99] true)])) none [] false 100 {} false)).map (·.path) ∧
     (([] : List String) = [] → (false : Bool) = false → ({} : ScopeConfig) = {} →
      _parse_gitignore (.dir [("a.py", .file [97] true),
        ("b.py", .file [98, 99] true)]) = [] →
      ∀ rel b, findFile (.dir [("a.py", .file [97] true),
          ("b.py", .file [98, 99] true)]) rel = some (b, true) →
        b.length ≤ 100 → _is_binary_file b = false →
        List.count (["r"] ++ rel)
          ((okFiles (scan_repository ["r"] (some (.dir [("a.py", .file [97] true),
            ("b.py", .file [98, 99] true)])) none [] false 100 {} false)).map (·.path)) = 1)) :=
  ⟨by decide, c8_scan_invariants ["r"]
    [("a.py", .file [97] true), ("b.py", .file [98, 99] true)]
    none [] false 100 {} false (by decide)⟩

/-- Witness for C6 at one commit over a small tree. -/
theorem c6_non_git_repo_empty_witness :
    1 ≤ 1 ∧
    (get_files_from_recent_commits ["r"] (.dir [("a.py", .file [97] true)])
      none 1 = ∅ ∧
     get_uncommitted_files ["r"] (.dir [("a.py", .file [97] true)]) none = ∅) :=
  ⟨by decide, c6_non_git_repo_empty ["r"] (.dir [("a.py", .file [97] true)]) 1
    (by decide)⟩

/-- C9 counterexample: with the pyperclip dependency absent and clipboard
output requested, `handle_output` does not complete the operation: it calls
`sys.exit(1)`, so the absence is not a recoverable condition as claimed. -/
theorem c9_clipboard_crash_counterexample :
    ¬ ((handle_output ⟨false, true, true⟩ "content" none true false).exit = none) := by
  decide

/-- C9 (amended): `handle_output` reads the clipboard dependency
availability flag at call time; when clipboard output is requested and the
dependency is absent, it prints an error and terminates the operation with
exit status 1 — nothing is copied and the stdout sink is skipped — exactly
as `test_clipboard_unavailable` asserts via `SystemExit`. -/
theorem c9_clipboard_unavailable_exits (env : OutputEnv) (content : String)
    (output_file : Option String) (to_stdout : Bool)
    (h : env.pyperclip_available = false) :
    (handle_output env content output_file true to_stdout).exit = some 1 ∧
    (handle_output env content output_file true to_stdout).clipboard = none ∧
    (handle_output env content output_file true to_stdout).stdout = none := by
  unfold handle_output clipboardStage
  cases output_file with
  | none => simp [h]
  | some p =>
    cases hw : env.file_write_ok with
    | false => simp [hw]
    | true => simp [h, hw]

/-- Witness for C9 (amended) at a concrete environment without pyperclip. -/
theorem c9_clipboard_unavailable_exits_witness :
    (OutputEnv.mk false true true).pyperclip_available = false ∧
    ((handle_output ⟨false, true, true⟩ "content" none true false).exit = some 1 ∧
     (handle_output ⟨false, true, true⟩ "content" none true false).clipboard = none ∧
     (handle_output ⟨false, true, true⟩ "content" none true false).stdout = none) :=
  ⟨rfl, c9_clipboard_unavailable_exits ⟨false, true, true⟩ "content" none false rfl⟩

/-- C10 counterexample: with no output option selected, stdout does not
receive exactly the input content: `print` appends a newline, so the bytes
delivered to stdout are the content followed by a line feed. -/
theorem c10_stdout_newline_counterexample :
    ¬ ((handle_output ⟨true, true, true⟩ "a" none false false).stdout = some "a") := by
  decide

/-- C10 (amended): with no output file, clipboard off and stdout off,
stdout is the implicit default sink: the call delivers the input content
followed by a single terminating newline to stdout (Python `print`), writes
no file, copies nothing to the clipboard and completes without exiting. -/
theorem c10_default_stdout (env : OutputEnv) (content : String) :
    (handle_output env content none false false).stdout = some (content ++ "\n") ∧
    (handle_output env content none false false).file_written = none ∧
    (handle_output env content none false false).clipboard = none ∧
    (handle_output env content none false false).exit = none := by
  unfold handle_output clipboardStage stdoutStage
  simp

end Repo2Md
